import Mathlib

/- Verification of the bluge search core: the top-N collector pipeline
   (search/collector), the multi-searcher fan-in (MultiSearcherList, MultiSearch)
   and the index configuration builders (index/config.go), over a shallow
   embedding of the Go source.  Concurrency note: the Go collector runs its four
   pipeline stages as goroutines fed per match; the spec (design notes) states
   that a single task running the four stages in line has the identical
   observable contract, and that sequential form is what is embedded here. -/

namespace Bluge

/-- DocumentMatch models search.DocumentMatch as the collector observes it after
the compute-sort stage: the computed sort key vector and the hit number assigned
by Collect.  Each sort component (a byte slice compared with bytes.Compare in
Go) is modelled as an integer, an order-preserving abstraction of the
lexicographic byte order. -/
structure DocumentMatch where
  sortValue : List Int
  hitNumber : Nat
deriving DecidableEq

/-- Modelled from the spec: componentwise lexicographic comparison of sort key
vectors, as performed by search.SortOrder.Compare, whose source file is not part
of the collector sources; the spec states matches are ordered under the sort
order with ties broken by ascending hit number.  Descending sort components are
modelled as negated key components. -/
def listCompare : List Int → List Int → Int
  | [], [] => 0
  | [], _ :: _ => -1
  | _ :: _, [] => 1
  | x :: xs, y :: ys => if x < y then -1 else if y < x then 1 else listCompare xs ys

/-- natCompareInt returns -1, 0 or 1 according to the order of two naturals. -/
def natCompareInt (m n : Nat) : Int :=
  if m < n then -1 else if n < m then 1 else 0

/-- Modelled from the spec: search.SortOrder.Compare including the hit number
tie break; this is the comparator that newTopNCollector hands to the collector
store and that startComparePipeline applies. -/
def soCompare (i j : DocumentMatch) : Int :=
  let c := listCompare i.sortValue j.sortValue
  if c = 0 then natCompareInt i.hitNumber j.hitNumber else c

/-- rle is the non-strict order induced by soCompare; the collector store keeps
its vector sorted by this relation, best-ranked match first. -/
def rle (i j : DocumentMatch) : Prop := soCompare i j ≤ 0

instance : DecidableRel rle := fun i j => inferInstanceAs (Decidable (soCompare i j ≤ 0))
/-- PreAllocSizeSkipCap caps store preallocation when size+skip exceeds this
value (search/collector source). -/
def PreAllocSizeSkipCap : Nat := 1000

/-- switchFromSliceToHeap is the size+skip bound up to which the slice store is
selected (search/collector source). -/
def switchFromSliceToHeap : Nat := 10

/-- CheckDoneEvery controls how frequently the collector checks the context
deadline (search/collector source). -/
def CheckDoneEvery : Nat := 1024

/-- StoreKind records which collectorStore implementation newTopNCollector
selects, along with the preallocated backing capacity handed to its
constructor. -/
inductive StoreKind where
  | slice (cap : Nat)
  | heap (cap : Nat)
deriving DecidableEq

/-- TopNCollector models the configuration part of the Go TopNCollector built
by newTopNCollector: requested size and skip, reverse flag, preallocation size,
selected store implementation, and the optional search-after cursor. -/
structure TopNCollector where
  size : Nat
  skip : Nat
  reverse : Bool
  backingSize : Nat
  store : StoreKind
  searchAfter : Option DocumentMatch
deriving DecidableEq

/-- newTopNCollector mirrors the Go constructor: the backing size is
size+skip+1, capped at PreAllocSizeSkipCap+1 when size+skip exceeds the cap,
and the store is a heap exactly when size+skip exceeds switchFromSliceToHeap,
in both cases built with the backing size as capacity. -/
def newTopNCollector (size skip : Nat) (reverse : Bool) : TopNCollector :=
  let backingSize :=
    if size + skip > PreAllocSizeSkipCap then PreAllocSizeSkipCap + 1 else size + skip + 1
  { size := size
    skip := skip
    reverse := reverse
    backingSize := backingSize
    store :=
      if size + skip > switchFromSliceToHeap then StoreKind.heap backingSize
      else StoreKind.slice backingSize
    searchAfter := none }

/-- NewTopNCollector mirrors the exported constructor: no search-after cursor
and no reverse. -/
def NewTopNCollector (size skip : Nat) : TopNCollector :=
  newTopNCollector size skip false

/-- NewTopNCollectorAfter mirrors the exported search-after constructor: skip
is fixed to zero and the cursor match carries the given sort key (its hit
number field starts at the zero value). -/
def NewTopNCollectorAfter (size : Nat) (after : List Int) (reverse : Bool) : TopNCollector :=
  { newTopNCollector size 0 reverse with searchAfter := some ⟨after, 0⟩ }

/-- Modelled from the spec: AddNotExceedingSize of the collectorStore
implementations (the slice and heap store files are not among the sources;
the collectorStore interface in the collector source states that the document
is added and, if the new store size exceeds the provided size, the last element
is removed and returned).  The store is kept ordered best-ranked first, so the
last element is the worst ranked one. -/
def AddNotExceedingSize (doc : DocumentMatch) (size : Nat) (s : List DocumentMatch) :
    List DocumentMatch × Option DocumentMatch :=
  if size < (s.orderedInsert rle doc).length then
    ((s.orderedInsert rle doc).dropLast, (s.orderedInsert rle doc).getLast?)
  else (s.orderedInsert rle doc, none)

/-- Modelled from the spec: Final of the collectorStore implementations drains
the store in rank order and throws away the results to be skipped, namely the
first skip ranks, so that the ranks from skip onwards remain. -/
def storeFinal (skip : Nat) (s : List DocumentMatch) : List DocumentMatch :=
  s.drop skip

/-- CollectorState carries the collector fields the compare stage updates: the
bounded store contents (ordered best-ranked first) and the lowest match outside
results. -/
structure CollectorState where
  store : List DocumentMatch
  lowestMatchOutsideResults : Option DocumentMatch
deriving DecidableEq

/-- updateLowest merges an element evicted from the store into the recorded
lowest match outside results, keeping the better ranked of the two, as
startComparePipeline does. -/
def updateLowest (removed lowest : Option DocumentMatch) : Option DocumentMatch :=
  match removed, lowest with
  | none, low => low
  | some r, none => some r
  | some r, some low => if soCompare r low < 0 then some r else some low

/-- addToStore performs the store insertion step of startComparePipeline: the
match is added to the bounded store and any evicted element is merged into the
lowest match outside results. -/
def addToStore (sz : Nat) (st : CollectorState) (d : DocumentMatch) : CollectorState :=
  ⟨(AddNotExceedingSize d sz st.store).1,
   updateLowest (AddNotExceedingSize d sz st.store).2 st.lowestMatchOutsideResults⟩

/-- compareStore is the tail of startComparePipeline after the search-after
filter: when a lowest match outside results is recorded and the candidate
compares greater or equal to it, the candidate is dropped without touching the
store; otherwise it is inserted. -/
def compareStore (sz : Nat) (st : CollectorState) (d : DocumentMatch) : CollectorState :=
  match st.lowestMatchOutsideResults with
  | some low => if 0 ≤ soCompare d low then st else addToStore sz st d
  | none => addToStore sz st d

/-- comparePipeline is the per-match body of startComparePipeline: first the
search-after filter, skipping the match when it compares less or equal to the
cursor whose hit number was just set to the candidate hit number, then the
store step. -/
def comparePipeline (sa : Option DocumentMatch) (sz : Nat)
    (st : CollectorState) (d : DocumentMatch) : CollectorState :=
  match sa with
  | some s =>
    if soCompare d ⟨s.sortValue, d.hitNumber⟩ ≤ 0 then st else compareStore sz st d
  | none => compareStore sz st d

/-- assignHits numbers a stream of computed sort keys with consecutive hit
numbers, as the Collect loop does with its counter. -/
def assignHits : Nat → List (List Int) → List DocumentMatch
  | _, [] => []
  | n, k :: ks => ⟨k, n⟩ :: assignHits (n + 1) ks

/-- collectState folds the whole match stream through the compare stage,
starting from the empty store. -/
def collectState (sa : Option DocumentMatch) (sz : Nat)
    (ds : List DocumentMatch) : CollectorState :=
  ds.foldl (comparePipeline sa sz) ⟨[], none⟩

/-- finalizeResults mirrors TopNCollector.finalizeResults: the store is
finalised with skip and the result vector is reversed in place when the reverse
flag is set. -/
def finalizeResults (skip : Nat) (reverse : Bool) (st : CollectorState) : List DocumentMatch :=
  let results := storeFinal skip st.store
  if reverse then results.reverse else results

/-- Collect models TopNCollector.Collect for a collector built by
newTopNCollector: hit numbers are assigned in stream order starting at one,
every match flows through the compare stage with bound size+skip, and the
results are finalised. -/
def Collect (size skip : Nat) (reverse : Bool) (sa : Option DocumentMatch)
    (keys : List (List Int)) : List DocumentMatch :=
  finalizeResults skip reverse (collectState sa (size + skip) (assignHits 1 keys))

/-- CollectAfter models a search executed through NewTopNCollectorAfter with
the given cursor key: skip is zero and the search-after filter is active. -/
def CollectAfter (size : Nat) (after : List Int) (reverse : Bool)
    (keys : List (List Int)) : List DocumentMatch :=
  Collect size 0 reverse (some ⟨after, 0⟩) keys

/-- PipelineState pairs the aggregation bucket contents (the matches consumed
by bucket.Consume, in order) with the compare stage state. -/
structure PipelineState where
  bucket : List DocumentMatch
  cstate : CollectorState

/-- collectSingle models the per-match pipeline of TopNCollector.collectSingle:
after load-doc-values and compute-sort (already reflected in the match), the
match is consumed into the aggregation bucket, then handed to the compare
stage; consumption happens before and independently of the search-after filter,
the short-circuit and any eviction. -/
def collectSingle (sa : Option DocumentMatch) (sz : Nat)
    (p : PipelineState) (d : DocumentMatch) : PipelineState :=
  ⟨p.bucket ++ [d], comparePipeline sa sz p.cstate d⟩

/-- runPipelines folds the whole stream through collectSingle starting from an
empty bucket and empty store. -/
def runPipelines (sa : Option DocumentMatch) (sz : Nat)
    (ds : List DocumentMatch) : PipelineState :=
  ds.foldl (collectSingle sa sz) ⟨[], ⟨[], none⟩⟩

/-- collectLoop models the Collect driver loop with context checks: before
assigning hit number h+1, when the count h of matches assigned so far is a
multiple of CheckDoneEvery the context is polled, and a signalled context
aborts the whole collection with an error. -/
def collectLoop (cancelled : Nat → Bool) (sa : Option DocumentMatch) (sz : Nat) :
    Nat → CollectorState → List DocumentMatch → Except Unit CollectorState
  | _, st, [] => Except.ok st
  | h, st, d :: ds =>
    if h % CheckDoneEvery = 0 ∧ cancelled h then Except.error ()
    else collectLoop cancelled sa sz (h + 1) (comparePipeline sa sz st d) ds

/-- CollectWithContext models Collect under a cancellation token: either a
cancellation error carrying no result iterator, or the finalised results. -/
def CollectWithContext (cancelled : Nat → Bool) (size skip : Nat) (reverse : Bool)
    (sa : Option DocumentMatch) (keys : List (List Int)) :
    Except Unit (List DocumentMatch) :=
  match collectLoop cancelled sa (size + skip) 0 ⟨[], none⟩ (assignHits 1 keys) with
  | Except.error e => Except.error e
  | Except.ok st => Except.ok (finalizeResults skip reverse st)

/-- SearcherStream models one child searcher of a MultiSearcherList: the sort
keys of the matches it produces before either draining or failing, and whether
it then fails with an error (which collectAllDocuments only logs). -/
structure SearcherStream where
  docs : List (List Int)
  failed : Bool

/-- multiSearcherChanCap is the capacity of the shared document channel made by
NewMultiSearcherList: twice the number of child searchers. -/
def multiSearcherChanCap (searchers : List SearcherStream) : Nat :=
  searchers.length * 2

/-- multiSearchGroupLimit is the bounded concurrency cap collectAllDocuments
sets on its errgroup. -/
def multiSearchGroupLimit : Nat := 1000

/-- collectAllDocuments models the documents funnelled into the shared channel
before it is closed: every match each child searcher produced before finishing
or failing; a failure removes nothing already sent and stops no other searcher
(sequential interleaving model). -/
def collectAllDocuments (searchers : List SearcherStream) : List (List Int) :=
  (searchers.map SearcherStream.docs).flatten

/-- loggedError models the first error collectAllDocuments receives from the
errgroup wait and logs without propagating it. -/
def loggedError (searchers : List SearcherStream) : Bool :=
  searchers.any SearcherStream.failed

/-- mslNext models MultiSearcherList.Next: a receive from the shared channel
paired with an always nil error; a receive on the closed, drained channel
yields the zero value none. -/
def mslNext (pending : List (List Int)) : Option (List Int) × Option Unit :=
  match pending with
  | [] => (none, none)
  | d :: _ => (some d, none)

/-- nextResults lists the successive values MultiSearcherList.Next returns over
a whole search: one (match, nil) pair per funnelled document, then the
end-of-stream pair (none, nil) once the channel is closed. -/
def nextResults (searchers : List SearcherStream) :
    List (Option (List Int) × Option Unit) :=
  ((collectAllDocuments searchers).map fun k => (some k, none)) ++ [(none, none)]

/-- driveCollect models the Collect driver loop reading from a searcher: it
aborts with the error when Next reports one, stops at end of stream, and
otherwise accumulates the matches. -/
def driveCollect : List (Option (List Int) × Option Unit) → Except Unit (List (List Int))
  | [] => Except.ok []
  | (_, some _) :: _ => Except.error ()
  | (none, none) :: _ => Except.ok []
  | (some k, none) :: rest =>
    match driveCollect rest with
    | Except.error e => Except.error e
    | Except.ok ks => Except.ok (k :: ks)

/-- MultiSearch models bluge MultiSearch: the matches of all child searchers
are funnelled through the MultiSearcherList into one shared top-N collector
built from the request. -/
def MultiSearch (size skip : Nat) (reverse : Bool)
    (searchers : List SearcherStream) : Except Unit (List DocumentMatch) :=
  match driveCollect (nextResults searchers) with
  | Except.error e => Except.error e
  | Except.ok ks => Except.ok (Collect size skip reverse none ks)

/-- SegField models a segment.Field virtual field: its name and an abstract
payload standing for the rest of the value. -/
structure SegField where
  name : String
  payload : Nat
deriving DecidableEq

/-- VirtualFieldsMap models the Go map from field name to the slice of virtual
fields registered under that name. -/
abbrev VirtualFieldsMap := List (String × List SegField)

/-- vfGet models Go map indexing with the nil slice default. -/
def vfGet (m : VirtualFieldsMap) (k : String) : List SegField :=
  match m with
  | [] => []
  | (k2, v) :: rest => if k2 = k then v else vfGet rest k

/-- vfAppend models the Go statement appending a field to the map slice stored
under the field name. -/
def vfAppend (m : VirtualFieldsMap) (k : String) (f : SegField) : VirtualFieldsMap :=
  match m with
  | [] => [(k, [f])]
  | (k2, v) :: rest =>
    if k2 = k then (k2, v ++ [f]) :: rest else (k2, v) :: vfAppend rest k f

/-- GoHeap models the part of the Go heap holding virtual field maps; a Config
value holds a reference into it, so that copies of a Config share one map. -/
abbrev GoHeap := Nat → VirtualFieldsMap

/-- heapSet overwrites the map stored under one reference. -/
def heapSet (h : GoHeap) (r : Nat) (m : VirtualFieldsMap) : GoHeap :=
  fun r2 => if r2 = r then m else h r2

/-- Config models index.Config restricted to the fields the builder methods
touch: two plain value fields (the persister nap time and the norm calc
function, the latter stood for by an abstract token) and the reference to the
shared virtual fields map. -/
structure Config where
  PersisterNapTimeMSec : Int
  NormCalc : Nat
  virtualFields : Nat
deriving DecidableEq

/-- WithPersisterNapTimeMSec mirrors the Go method: the receiver is copied by
value and only the named field of the copy is set. -/
def WithPersisterNapTimeMSec (config : Config) (napTime : Int) : Config :=
  { config with PersisterNapTimeMSec := napTime }

/-- WithNormCalc mirrors the Go method: only the NormCalc field of the returned
copy is set. -/
def WithNormCalc (config : Config) (nc : Nat) : Config :=
  { config with NormCalc := nc }

/-- WithVirtualField mirrors the Go method: the field is appended to the map
reached through the shared reference (a Go map assignment mutates the heap, not
the copied struct) and the copy, holding the same reference, is returned. -/
def WithVirtualField (h : GoHeap) (config : Config) (field : SegField) :
    GoHeap × Config :=
  (heapSet h config.virtualFields
    (vfAppend (h config.virtualFields) field.name field), config)



/-- LowInv relates the store contents to the recorded lowest match outside
results: when one is recorded, the store is full (exactly the bound) and every
stored match ranks at or before it without equalling it; otherwise the store
never exceeds the bound. -/
def LowInv (sz : Nat) (s : List DocumentMatch) : Option DocumentMatch → Prop
  | some l => s.length = sz ∧ l ∉ s ∧ ∀ x ∈ s, soCompare x l ≤ 0
  | none => s.length ≤ sz

instance : ∀ (sz : Nat) (s : List DocumentMatch) (o : Option DocumentMatch),
    Decidable (LowInv sz s o)
  | _, _, some _ => inferInstanceAs (Decidable (_ ∧ _ ∧ _))
  | _, _, none => inferInstanceAs (Decidable (_ ≤ _))

/-- StoreInv states the reachable-state invariants of the compare stage: the
store is sorted best-ranked first without duplicates and satisfies LowInv with
respect to the recorded lowest match outside results. -/
def StoreInv (sz : Nat) (st : CollectorState) : Prop :=
  List.Sorted rle st.store ∧ st.store.Nodup ∧
    LowInv sz st.store st.lowestMatchOutsideResults

instance (sz : Nat) (st : CollectorState) : Decidable (StoreInv sz st) :=
  inferInstanceAs (Decidable (_ ∧ _ ∧ _))

/-- FreshLow states that a candidate differs from the recorded lowest match
outside results when there is one. -/
def FreshLow (d : DocumentMatch) : Option DocumentMatch → Prop
  | some l => d ≠ l
  | none => True

instance : ∀ (d : DocumentMatch) (o : Option DocumentMatch),
    Decidable (FreshLow d o)
  | _, some _ => inferInstanceAs (Decidable (_ ≠ _))
  | _, none => inferInstanceAs (Decidable True)

/-- FreshCandidate states that a candidate match is distinct from everything
the compare stage has retained, as holds in a run because hit numbers are
unique. -/
def FreshCandidate (st : CollectorState) (d : DocumentMatch) : Prop :=
  d ∉ st.store ∧ FreshLow d st.lowestMatchOutsideResults

instance (st : CollectorState) (d : DocumentMatch) :
    Decidable (FreshCandidate st d) :=
  inferInstanceAs (Decidable (_ ∧ _))

/-- oiFold inserts a stream of matches one by one into an ordered list; it is
the unbounded counterpart of the collector store run. -/
def oiFold (t : List DocumentMatch) (ds : List DocumentMatch) : List DocumentMatch :=
  ds.foldl (fun s d => s.orderedInsert rle d) t

/-- finalizeDiscardWorst expresses the claim wording for finalisation, namely
that the skip worst-ranked entries of the drained store are discarded; the
store being ordered best-ranked first, those are its last skip entries. -/
def finalizeDiscardWorst (skip : Nat) (reverse : Bool) (st : CollectorState) :
    List DocumentMatch :=
  let results := List.take (st.store.length - skip) st.store
  if reverse then results.reverse else results


-- #### Theorems ####

theorem listCompare_self (a : List Int) : listCompare a a = 0 := by
  induction a with
  | nil => rfl
  | cons x xs ih => simp [listCompare, lt_irrefl, ih]

theorem listCompare_neg : ∀ (a b : List Int), listCompare b a = -listCompare a b
  | [], [] => rfl
  | [], _ :: _ => rfl
  | _ :: _, [] => rfl
  | x :: xs, y :: ys => by
    simp only [listCompare]
    rcases lt_trichotomy x y with h | h | h
    · simp [h, asymm h]
    · subst h
      simp [lt_irrefl, listCompare_neg xs ys]
    · simp [h, asymm h]

theorem listCompare_eq_zero : ∀ {a b : List Int}, listCompare a b = 0 → a = b
  | [], [], _ => rfl
  | [], _ :: _, h => absurd h (by simp [listCompare])
  | _ :: _, [], h => absurd h (by simp [listCompare])
  | x :: xs, y :: ys, h => by
    simp only [listCompare] at h
    by_cases h1 : x < y
    · rw [if_pos h1] at h
      exact absurd h (by decide)
    · rw [if_neg h1] at h
      by_cases h2 : y < x
      · rw [if_pos h2] at h
        exact absurd h (by decide)
      · rw [if_neg h2] at h
        have hxy : x = y := le_antisymm (not_lt.mp h2) (not_lt.mp h1)
        rw [hxy, listCompare_eq_zero h]

theorem listCompare_nil_le (c : List Int) : listCompare [] c ≤ 0 := by
  cases c <;> simp [listCompare]

theorem listCompare_trans_le : ∀ (a b c : List Int),
    listCompare a b ≤ 0 → listCompare b c ≤ 0 → listCompare a c ≤ 0
  | [], _, c, _, _ => listCompare_nil_le c
  | _ :: _, [], _, hab, _ => absurd hab (by simp [listCompare])
  | _ :: _, _ :: _, [], _, hbc => absurd hbc (by simp [listCompare])
  | x :: xs, y :: ys, z :: zs, hab, hbc => by
    simp only [listCompare] at hab hbc ⊢
    have hyx : ¬ y < x := by
      intro hc
      rw [if_neg (asymm hc), if_pos hc] at hab
      omega
    have hzy : ¬ z < y := by
      intro hc
      rw [if_neg (asymm hc), if_pos hc] at hbc
      omega
    by_cases h1 : x < z
    · rw [if_pos h1]; omega
    · rw [if_neg h1]
      by_cases h2 : z < x
      · rw [if_pos h2]
        have : x ≤ y := not_lt.mp hyx
        have : y ≤ z := not_lt.mp hzy
        omega
      · rw [if_neg h2]
        have hxz : x = z := le_antisymm (not_lt.mp h2) (not_lt.mp h1)
        by_cases h3 : x < y
        · exfalso
          rw [hxz] at h3
          rw [if_neg (asymm h3), if_pos h3] at hbc
          omega
        · rw [if_neg h3, if_neg hyx] at hab
          have hxy : x = y := le_antisymm (not_lt.mp hyx) (not_lt.mp h3)
          have hnyz : ¬ y < z := by omega
          have hnzy : ¬ z < y := by omega
          rw [if_neg hnyz, if_neg hnzy] at hbc
          exact listCompare_trans_le xs ys zs hab hbc

theorem natCompareInt_neg (m n : Nat) : natCompareInt n m = -natCompareInt m n := by
  simp only [natCompareInt]
  split_ifs <;> omega

theorem natCompareInt_eq_zero {m n : Nat} (h : natCompareInt m n = 0) : m = n := by
  simp only [natCompareInt] at h
  split_ifs at h <;> omega

theorem natCompareInt_le_of_le {m n : Nat} (h : m ≤ n) : natCompareInt m n ≤ 0 := by
  simp only [natCompareInt]
  split_ifs <;> omega

theorem le_of_natCompareInt_le {m n : Nat} (h : natCompareInt m n ≤ 0) : m ≤ n := by
  simp only [natCompareInt] at h
  split_ifs at h <;> omega

theorem soCompare_self (d : DocumentMatch) : soCompare d d = 0 := by
  unfold soCompare
  rw [listCompare_self, if_pos rfl]
  simp [natCompareInt]

theorem soCompare_neg (d e : DocumentMatch) : soCompare e d = -soCompare d e := by
  simp only [soCompare]
  rw [listCompare_neg d.sortValue e.sortValue]
  by_cases h : listCompare d.sortValue e.sortValue = 0
  · rw [h]
    simp only [neg_zero, if_pos rfl]
    exact natCompareInt_neg d.hitNumber e.hitNumber
  · simp [h]

theorem soCompare_eq_zero {d e : DocumentMatch} (h : soCompare d e = 0) : d = e := by
  simp only [soCompare] at h
  by_cases h1 : listCompare d.sortValue e.sortValue = 0
  · rw [if_pos h1] at h
    cases d with
    | mk dsv dh =>
      cases e with
      | mk esv eh =>
        simp only at h1 h
        rw [listCompare_eq_zero h1, natCompareInt_eq_zero h]
  · rw [if_neg h1] at h
    exact absurd h h1

theorem soCompare_trans_le {d e f : DocumentMatch}
    (h1 : soCompare d e ≤ 0) (h2 : soCompare e f ≤ 0) : soCompare d f ≤ 0 := by
  simp only [soCompare] at h1 h2 ⊢
  by_cases ha : listCompare d.sortValue e.sortValue = 0
  · have hde : d.sortValue = e.sortValue := listCompare_eq_zero ha
    rw [if_pos ha] at h1
    by_cases hb : listCompare e.sortValue f.sortValue = 0
    · have hef : e.sortValue = f.sortValue := listCompare_eq_zero hb
      rw [if_pos hb] at h2
      rw [hde, hef, listCompare_self, if_pos rfl]
      exact natCompareInt_le_of_le
        (le_trans (le_of_natCompareInt_le h1) (le_of_natCompareInt_le h2))
    · rw [if_neg hb] at h2
      rw [hde]
      rw [if_neg hb]
      exact h2
  · rw [if_neg ha] at h1
    by_cases hb : listCompare e.sortValue f.sortValue = 0
    · have hef : e.sortValue = f.sortValue := listCompare_eq_zero hb
      rw [← hef]
      rw [if_neg ha]
      exact h1
    · rw [if_neg hb] at h2
      have hc : listCompare d.sortValue f.sortValue ≤ 0 :=
        listCompare_trans_le _ _ _ h1 h2
      by_cases hz : listCompare d.sortValue f.sortValue = 0
      · exfalso
        have hdf : d.sortValue = f.sortValue := listCompare_eq_zero hz
        rw [← hdf] at h2
        rw [listCompare_neg d.sortValue e.sortValue] at h2
        omega
      · rw [if_neg hz]
        exact hc

theorem assignHits_length : ∀ (n : Nat) (ks : List (List Int)),
    (assignHits n ks).length = ks.length
  | _, [] => rfl
  | n, _ :: ks => by simp [assignHits, assignHits_length (n + 1) ks]

theorem collectLoop_error_iff (cancelled : Nat → Bool) (sa : Option DocumentMatch)
    (sz : Nat) : ∀ (ds : List DocumentMatch) (h : Nat) (st : CollectorState),
    collectLoop cancelled sa sz h st ds = Except.error () ↔
      ∃ i, i < ds.length ∧ (h + i) % CheckDoneEvery = 0 ∧ cancelled (h + i) = true
  | [], h, st => by simp [collectLoop]
  | d :: ds, h, st => by
    simp only [collectLoop]
    by_cases hc : h % CheckDoneEvery = 0 ∧ cancelled h = true
    · rw [if_pos hc]
      simp only [List.length_cons]
      constructor
      · intro _
        exact ⟨0, Nat.succ_pos _, by simpa using hc.1, by simpa using hc.2⟩
      · intro _
        trivial
    · rw [if_neg hc]
      rw [collectLoop_error_iff cancelled sa sz ds (h + 1) (comparePipeline sa sz st d)]
      simp only [List.length_cons]
      constructor
      · rintro ⟨i, hi, hm, hcan⟩
        refine ⟨i + 1, by omega, ?_, ?_⟩
        · have he : h + (i + 1) = h + 1 + i := by omega
          rw [he]; exact hm
        · have he : h + (i + 1) = h + 1 + i := by omega
          rw [he]; exact hcan
      · rintro ⟨i, hi, hm, hcan⟩
        cases i with
        | zero =>
          exact absurd ⟨by simpa using hm, by simpa using hcan⟩ hc
        | succ j =>
          refine ⟨j, by omega, ?_, ?_⟩
          · have he : h + 1 + j = h + (j + 1) := by omega
            rw [he]; exact hm
          · have he : h + 1 + j = h + (j + 1) := by omega
            rw [he]; exact hcan

theorem collectLoop_ok (cancelled : Nat → Bool) (sa : Option DocumentMatch)
    (sz : Nat) : ∀ (ds : List DocumentMatch) (h : Nat) (st : CollectorState),
    (∀ i, i < ds.length → (h + i) % CheckDoneEvery = 0 → cancelled (h + i) = false) →
    collectLoop cancelled sa sz h st ds = Except.ok (ds.foldl (comparePipeline sa sz) st)
  | [], _, _, _ => rfl
  | d :: ds, h, st, hok => by
    have hne : ¬(h % CheckDoneEvery = 0 ∧ cancelled h = true) := by
      rintro ⟨hm, hcan⟩
      have hfalse : cancelled h = false := by
        simpa using hok 0 (by simp) (by simpa using hm)
      rw [hfalse] at hcan
      exact Bool.false_ne_true hcan
    simp only [collectLoop]
    rw [if_neg hne, List.foldl_cons]
    exact collectLoop_ok cancelled sa sz ds (h + 1) (comparePipeline sa sz st d)
      (fun i hi hm => by
        have he : h + 1 + i = h + (i + 1) := by omega
        rw [he] at hm ⊢
        exact hok (i + 1) (by simpa using Nat.succ_lt_succ hi) hm)

/-- Claim C7: the collector polls the cancellation token exactly at match
counts that are multiples of CheckDoneEvery = 1024; a poll observing a
signalled token makes Collect return a cancellation error carrying no
result iterator at all, while a token never observed signalled yields exactly the
normal Collect results. -/
theorem context_check_cadence (cancelled : Nat → Bool) (size skip : Nat)
    (reverse : Bool) (sa : Option DocumentMatch) (keys : List (List Int)) :
    CheckDoneEvery = 1024 ∧
    (CollectWithContext cancelled size skip reverse sa keys = Except.error () ↔
      ∃ i, i < keys.length ∧ i % CheckDoneEvery = 0 ∧ cancelled i = true) ∧
    ((∀ i, i < keys.length → i % CheckDoneEvery = 0 → cancelled i = false) →
      CollectWithContext cancelled size skip reverse sa keys =
        Except.ok (Collect size skip reverse sa keys)) := by
  refine ⟨rfl, ?_, ?_⟩
  · have hiff := collectLoop_error_iff cancelled sa (size + skip)
      (assignHits 1 keys) 0 ⟨[], none⟩
    simp only [Nat.zero_add, assignHits_length] at hiff
    unfold CollectWithContext
    cases hcl : collectLoop cancelled sa (size + skip) 0 ⟨[], none⟩ (assignHits 1 keys) with
    | error e =>
      cases e
      rw [hcl] at hiff
      simpa using hiff
    | ok st =>
      rw [hcl] at hiff
      simp at hiff ⊢
      exact hiff
  · intro hok
    have hok2 : ∀ i, i < (assignHits 1 keys).length →
        (0 + i) % CheckDoneEvery = 0 → cancelled (0 + i) = false := by
      intro i hi hm
      rw [Nat.zero_add] at hm ⊢
      rw [assignHits_length] at hi
      exact hok i hi hm
    unfold CollectWithContext
    rw [collectLoop_ok cancelled sa (size + skip) (assignHits 1 keys) 0 ⟨[], none⟩ hok2]
    rfl

/-- Claim C4 (amended): for every (size, skip), newTopNCollector selects the
ordered slice store with linear insertion exactly when size+skip is at most
switchFromSliceToHeap = 10, and otherwise the max-heap store (max meaning worst
under the sort order); the preallocated capacity handed to either store is
size+skip+1, capped at PreAllocSizeSkipCap+1 = 1001 once size+skip exceeds
PreAllocSizeSkipCap = 1000. -/
theorem store_selection_and_capacity (size skip : Nat) (reverse : Bool) :
    ((∃ cap, (newTopNCollector size skip reverse).store = StoreKind.slice cap) ↔
      size + skip ≤ switchFromSliceToHeap) ∧
    switchFromSliceToHeap = 10 ∧
    PreAllocSizeSkipCap = 1000 ∧
    (newTopNCollector size skip reverse).backingSize =
      (if size + skip > PreAllocSizeSkipCap then PreAllocSizeSkipCap + 1
       else size + skip + 1) ∧
    (newTopNCollector size skip reverse).store =
      (if size + skip > switchFromSliceToHeap
       then StoreKind.heap (newTopNCollector size skip reverse).backingSize
       else StoreKind.slice (newTopNCollector size skip reverse).backingSize) := by
  refine ⟨?_, rfl, rfl, rfl, ?_⟩
  · unfold newTopNCollector
    by_cases hgt : size + skip > switchFromSliceToHeap
    · simp only [hgt, if_pos]
      constructor
      · rintro ⟨cap, hcap⟩
        exact absurd hcap (by simp)
      · intro hle
        omega
    · simp only [hgt, if_neg]
      constructor
      · intro _
        omega
      · intro _
        exact ⟨_, rfl⟩
  · unfold newTopNCollector
    by_cases hgt : size + skip > switchFromSliceToHeap <;> simp [hgt]

/-- Claim C4 as stated fails at size 1001, skip 0: the selected store is a heap
of preallocated capacity 1001, not size+skip+1 = 1002. -/
theorem store_capacity_cap_cex :
    (newTopNCollector 1001 0 false).store = StoreKind.heap 1001 ∧
    (newTopNCollector 1001 0 false).store ≠ StoreKind.heap (1001 + 0 + 1) := by
  decide

theorem driveCollect_mapped : ∀ (l : List (List Int)),
    driveCollect ((l.map fun k => (some k, none)) ++ [(none, none)]) = Except.ok l
  | [] => rfl
  | k :: l => by
    have ih := driveCollect_mapped l
    show (match driveCollect ((l.map fun k => (some k, none)) ++ [(none, none)]) with
      | Except.error e => Except.error e
      | Except.ok ks => Except.ok (k :: ks)) = Except.ok (k :: l)
    rw [ih]

/-- Claim C8: in MultiSearch the shared channel has capacity twice the number
of child searchers, the errgroup concurrency cap is 1000, the single shared
collector consumes exactly the funnelled documents and surfaces their top-N
as a non-error result (so the matches produced before any child failure are
surfaced), and no child searcher loses its produced matches because another
failed. -/
theorem multiSearch_surfaces_results (size skip : Nat) (reverse : Bool)
    (searchers : List SearcherStream) :
    multiSearcherChanCap searchers = 2 * searchers.length ∧
    multiSearchGroupLimit = 1000 ∧
    MultiSearch size skip reverse searchers =
      Except.ok (Collect size skip reverse none (collectAllDocuments searchers)) ∧
    (∀ s ∈ searchers, ∀ k ∈ s.docs, k ∈ collectAllDocuments searchers) := by
  refine ⟨by unfold multiSearcherChanCap; omega, rfl, ?_, ?_⟩
  · unfold MultiSearch nextResults
    rw [driveCollect_mapped]
  · intro s hs k hk
    exact List.mem_flatten.mpr ⟨s.docs, List.mem_map_of_mem _ hs, hk⟩

/-- Claim C9: MultiSearcherList.Next always returns a nil error; on the closed,
drained channel (including after a child searcher failed) it returns the pair
(none, nil), so the stream simply ends and no child error reaches the caller:
every value Next ever returns over a search carries a nil error and the last
one is (none, nil). -/
theorem mslNext_nil_error (searchers : List SearcherStream)
    (pending : List (List Int)) :
    (mslNext pending).2 = none ∧
    mslNext [] = (none, none) ∧
    (∀ step ∈ nextResults searchers, step.2 = none) ∧
    (nextResults searchers).getLast? = some (none, none) := by
  refine ⟨?_, rfl, ?_, ?_⟩
  · cases pending <;> rfl
  · intro step hstep
    rcases List.mem_append.mp hstep with hm | hm
    · rcases List.mem_map.mp hm with ⟨k, _, rfl⟩
      rfl
    · simp only [List.mem_singleton] at hm
      rw [hm]
  · exact List.getLast?_concat _

theorem vfGet_vfAppend_self : ∀ (m : VirtualFieldsMap) (k : String) (f : SegField),
    vfGet (vfAppend m k f) k = vfGet m k ++ [f]
  | [], k, f => by simp [vfAppend, vfGet]
  | (k2, v) :: rest, k, f => by
    by_cases h : k2 = k
    · simp [vfAppend, vfGet, h]
    · simp [vfAppend, vfGet, h, vfGet_vfAppend_self rest k f]

/-- Claim C10: WithVirtualField returns a copy holding the same shared map
reference and appends the field to the map behind it, so the receiver also
sees the new field afterwards, while its plain value fields are untouched;
WithPersisterNapTimeMSec and WithNormCalc each change only the named field of
the returned copy (the receiver, copied by value, is unchanged by
construction). -/
theorem config_builder_sharing (h : GoHeap) (c : Config) (f : SegField)
    (n : Int) (g : Nat) :
    (WithVirtualField h c f).2.virtualFields = c.virtualFields ∧
    f ∈ vfGet ((WithVirtualField h c f).1 c.virtualFields) f.name ∧
    (WithVirtualField h c f).2.PersisterNapTimeMSec = c.PersisterNapTimeMSec ∧
    (WithVirtualField h c f).2.NormCalc = c.NormCalc ∧
    (WithPersisterNapTimeMSec c n).PersisterNapTimeMSec = n ∧
    (WithPersisterNapTimeMSec c n).NormCalc = c.NormCalc ∧
    (WithPersisterNapTimeMSec c n).virtualFields = c.virtualFields ∧
    (WithNormCalc c g).NormCalc = g ∧
    (WithNormCalc c g).PersisterNapTimeMSec = c.PersisterNapTimeMSec ∧
    (WithNormCalc c g).virtualFields = c.virtualFields := by
  refine ⟨rfl, ?_, rfl, rfl, rfl, rfl, rfl, rfl, rfl, rfl⟩
  simp only [WithVirtualField, heapSet, if_pos, vfGet_vfAppend_self]
  exact List.mem_append_right _ (List.mem_singleton.mpr rfl)


theorem rle_total (a b : DocumentMatch) : rle a b ∨ rle b a := by
  by_cases h : soCompare a b ≤ 0
  · exact Or.inl h
  · refine Or.inr ?_
    unfold rle
    rw [soCompare_neg a b]
    omega

theorem rle_trans {a b c : DocumentMatch} (h1 : rle a b) (h2 : rle b c) : rle a c :=
  soCompare_trans_le h1 h2

theorem rle_refl (a : DocumentMatch) : rle a a := le_of_eq (soCompare_self a)

theorem rle_antisymm {a b : DocumentMatch} (h1 : rle a b) (h2 : rle b a) : a = b := by
  unfold rle at h1 h2
  apply soCompare_eq_zero
  rw [soCompare_neg a b] at h2
  omega

theorem sorted_orderedInsert_rle (d : DocumentMatch) (l : List DocumentMatch)
    (h : List.Sorted rle l) : List.Sorted rle (l.orderedInsert rle d) := by
  haveI : IsTotal DocumentMatch rle := ⟨rle_total⟩
  haveI : IsTrans DocumentMatch rle := ⟨fun _ _ _ => rle_trans⟩
  exact List.Sorted.orderedInsert d l h

theorem sorted_insertionSort_rle (l : List DocumentMatch) :
    List.Sorted rle (List.insertionSort rle l) := by
  haveI : IsTotal DocumentMatch rle := ⟨rle_total⟩
  haveI : IsTrans DocumentMatch rle := ⟨fun _ _ _ => rle_trans⟩
  exact List.sorted_insertionSort rle l

theorem eq_of_perm_sorted_rle {l1 l2 : List DocumentMatch} (hp : List.Perm l1 l2)
    (h1 : List.Sorted rle l1) (h2 : List.Sorted rle l2) : l1 = l2 := by
  haveI : IsAntisymm DocumentMatch rle := ⟨fun _ _ => rle_antisymm⟩
  exact List.eq_of_perm_of_sorted hp h1 h2

theorem take_orderedInsert_take (d : DocumentMatch) :
    ∀ (s : List DocumentMatch) (n : Nat),
      List.take n ((List.take n s).orderedInsert rle d) =
        List.take n (s.orderedInsert rle d)
  | [], n => by simp
  | x :: xs, 0 => by simp
  | x :: xs, n + 1 => by
    simp only [List.take_succ_cons, List.orderedInsert]
    by_cases h : rle d x
    · rw [if_pos h, if_pos h]
      cases n with
      | zero => simp
      | succ m =>
        simp only [List.take_succ_cons]
        rw [List.take_take, Nat.min_eq_left (Nat.le_succ m)]
    · rw [if_neg h, if_neg h]
      simp only [List.take_succ_cons]
      rw [take_orderedInsert_take d xs n]

theorem AddNotExceedingSize_fst (d : DocumentMatch) (sz : Nat)
    (s : List DocumentMatch) (h : s.length ≤ sz) :
    (AddNotExceedingSize d sz s).1 = List.take sz (s.orderedInsert rle d) := by
  unfold AddNotExceedingSize
  have hl : (s.orderedInsert rle d).length = s.length + 1 :=
    List.orderedInsert_length rle s d
  by_cases hlen : sz < (s.orderedInsert rle d).length
  · rw [if_pos hlen]
    show (s.orderedInsert rle d).dropLast = List.take sz (s.orderedInsert rle d)
    rw [List.dropLast_eq_take, hl]
    congr 1
    omega
  · rw [if_neg hlen]
    show s.orderedInsert rle d = List.take sz (s.orderedInsert rle d)
    rw [List.take_of_length_le (by omega)]

theorem mem_of_getLast_opt : ∀ {l : List DocumentMatch} {a : DocumentMatch},
    l.getLast? = some a → a ∈ l
  | [], _, h => by simp at h
  | [x], a, h => by
    have hxa : x = a := by simpa using h
    rw [← hxa]
    exact List.mem_singleton_self x
  | x :: y :: l, a, h => by
    rw [List.getLast?_cons_cons] at h
    exact List.mem_cons_of_mem x (mem_of_getLast_opt h)

theorem mem_AddNotExceedingSize_fst {x d : DocumentMatch} {sz : Nat}
    {s : List DocumentMatch} (h : x ∈ (AddNotExceedingSize d sz s).1) :
    x = d ∨ x ∈ s := by
  unfold AddNotExceedingSize at h
  by_cases hlen : sz < (s.orderedInsert rle d).length
  · rw [if_pos hlen] at h
    have h2 : x ∈ (s.orderedInsert rle d).dropLast := h
    have hx : x ∈ s.orderedInsert rle d :=
      (List.dropLast_sublist (s.orderedInsert rle d)).subset h2
    exact (List.mem_orderedInsert rle).mp hx
  · rw [if_neg hlen] at h
    have h2 : x ∈ s.orderedInsert rle d := h
    exact (List.mem_orderedInsert rle).mp h2

theorem AddNotExceedingSize_snd_mem {d r : DocumentMatch} {sz : Nat}
    {s : List DocumentMatch} (h : (AddNotExceedingSize d sz s).2 = some r) :
    r = d ∨ r ∈ s := by
  unfold AddNotExceedingSize at h
  by_cases hlen : sz < (s.orderedInsert rle d).length
  · rw [if_pos hlen] at h
    have h2 : (s.orderedInsert rle d).getLast? = some r := h
    exact (List.mem_orderedInsert rle).mp (mem_of_getLast_opt h2)
  · rw [if_neg hlen] at h
    have h2 : (none : Option DocumentMatch) = some r := h
    exact Option.noConfusion h2

theorem orderedInsert_eq_append {d : DocumentMatch} :
    ∀ {s : List DocumentMatch}, (∀ x ∈ s, ¬ rle d x) →
      s.orderedInsert rle d = s ++ [d]
  | [], _ => rfl
  | x :: xs, h => by
    simp only [List.orderedInsert]
    rw [if_neg (h x (List.mem_cons_self x xs))]
    rw [orderedInsert_eq_append fun y hy => h y (List.mem_cons_of_mem x hy)]
    rfl

theorem nodup_orderedInsert {d : DocumentMatch} {s : List DocumentMatch}
    (hd : d ∉ s) (hs : s.Nodup) : (s.orderedInsert rle d).Nodup :=
  ((List.perm_orderedInsert rle d s).symm).nodup (List.nodup_cons.mpr ⟨hd, hs⟩)

theorem sorted_forall_rle_getLast {s : List DocumentMatch}
    (hs : List.Sorted rle s) (hne : s ≠ []) :
    ∀ x ∈ s, rle x (s.getLast hne) := by
  intro x hx
  have hdec := List.dropLast_append_getLast hne
  rw [← hdec] at hs hx
  rcases List.mem_append.mp hx with hm | hm
  · exact (List.pairwise_append.mp hs).2.2 x hm _ (List.mem_singleton_self _)
  · rw [List.mem_singleton.mp hm]
    exact rle_refl _

theorem oiFold_sorted : ∀ (ds t : List DocumentMatch),
    List.Sorted rle t → List.Sorted rle (oiFold t ds)
  | [], _, h => h
  | d :: ds, t, h =>
    oiFold_sorted ds (t.orderedInsert rle d) (sorted_orderedInsert_rle d t h)

theorem oiFold_perm : ∀ (ds t : List DocumentMatch),
    List.Perm (oiFold t ds) (ds ++ t)
  | [], t => by simp [oiFold]
  | d :: ds, t =>
    ((oiFold_perm ds (t.orderedInsert rle d)).trans
      ((List.perm_orderedInsert rle d t).append_left ds)).trans List.perm_middle

theorem oiFold_eq_insertionSort (ds : List DocumentMatch) :
    oiFold [] ds = List.insertionSort rle ds := by
  have hperm := oiFold_perm ds []
  rw [List.append_nil] at hperm
  exact eq_of_perm_sorted_rle
    (hperm.trans (List.perm_insertionSort rle ds).symm)
    (oiFold_sorted ds [] List.sorted_nil)
    (sorted_insertionSort_rle ds)

theorem foldl_addNotExceeding (sz : Nat) :
    ∀ (ds : List DocumentMatch) (t : List DocumentMatch),
      ds.foldl (fun s d => (AddNotExceedingSize d sz s).1) (List.take sz t) =
        List.take sz (oiFold t ds)
  | [], _ => rfl
  | d :: ds, t => by
    simp only [List.foldl_cons]
    rw [AddNotExceedingSize_fst d sz (List.take sz t) (List.length_take_le sz t)]
    rw [take_orderedInsert_take d t sz]
    exact foldl_addNotExceeding sz ds (t.orderedInsert rle d)

theorem foldl_addToStore_store (sz : Nat) :
    ∀ (ds : List DocumentMatch) (st : CollectorState),
      (ds.foldl (addToStore sz) st).store =
        ds.foldl (fun s d => (AddNotExceedingSize d sz s).1) st.store
  | [], _ => rfl
  | d :: ds, st => by
    simp only [List.foldl_cons]
    exact foldl_addToStore_store sz ds (addToStore sz st d)


theorem compareStore_some {sz : Nat} {st : CollectorState} {d low : DocumentMatch}
    (hl : st.lowestMatchOutsideResults = some low) :
    compareStore sz st d =
      if 0 ≤ soCompare d low then st else addToStore sz st d := by
  unfold compareStore
  rw [hl]

theorem compareStore_none {sz : Nat} {st : CollectorState} {d : DocumentMatch}
    (hl : st.lowestMatchOutsideResults = none) :
    compareStore sz st d = addToStore sz st d := by
  unfold compareStore
  rw [hl]

theorem mem_addToStore_store {sz : Nat} {st : CollectorState} {d x : DocumentMatch}
    (h : x ∈ (addToStore sz st d).store) : x = d ∨ x ∈ st.store :=
  mem_AddNotExceedingSize_fst h

theorem lowest_addToStore {sz : Nat} {st : CollectorState} {d l : DocumentMatch}
    (h : (addToStore sz st d).lowestMatchOutsideResults = some l) :
    l = d ∨ l ∈ st.store ∨ st.lowestMatchOutsideResults = some l := by
  have h2 : updateLowest (AddNotExceedingSize d sz st.store).2
      st.lowestMatchOutsideResults = some l := h
  cases hr : (AddNotExceedingSize d sz st.store).2 with
  | none =>
    rw [hr] at h2
    right; right
    exact h2
  | some r =>
    rw [hr] at h2
    cases hls : st.lowestMatchOutsideResults with
    | none =>
      rw [hls] at h2
      have hrl : r = l := by simpa [updateLowest] using h2
      rcases AddNotExceedingSize_snd_mem hr with h3 | h3
      · left; rw [← hrl]; exact h3
      · right; left; rw [← hrl]; exact h3
    | some low =>
      rw [hls] at h2
      simp only [updateLowest] at h2
      by_cases hc : soCompare r low < 0
      · rw [if_pos hc] at h2
        have hrl : r = l := Option.some.inj h2
        rcases AddNotExceedingSize_snd_mem hr with h3 | h3
        · left; rw [← hrl]; exact h3
        · right; left; rw [← hrl]; exact h3
      · rw [if_neg hc] at h2
        right; right
        exact h2

theorem compareStore_cases (sz : Nat) (st : CollectorState) (d : DocumentMatch) :
    compareStore sz st d = st ∨ compareStore sz st d = addToStore sz st d := by
  cases hls : st.lowestMatchOutsideResults with
  | none => exact Or.inr (compareStore_none hls)
  | some low =>
    rw [compareStore_some hls]
    by_cases hc : 0 ≤ soCompare d low
    · rw [if_pos hc]
      exact Or.inl rfl
    · rw [if_neg hc]
      exact Or.inr rfl

theorem mem_compareStore_store {sz : Nat} {st : CollectorState} {d x : DocumentMatch}
    (h : x ∈ (compareStore sz st d).store) : x = d ∨ x ∈ st.store := by
  rcases compareStore_cases sz st d with he | he
  · rw [he] at h
    exact Or.inr h
  · rw [he] at h
    exact mem_addToStore_store h

theorem lowest_compareStore {sz : Nat} {st : CollectorState} {d l : DocumentMatch}
    (h : (compareStore sz st d).lowestMatchOutsideResults = some l) :
    l = d ∨ l ∈ st.store ∨ st.lowestMatchOutsideResults = some l := by
  rcases compareStore_cases sz st d with he | he
  · rw [he] at h
    right; right
    exact h
  · rw [he] at h
    exact lowest_addToStore h

theorem compareStore_eq_addToStore {sz : Nat} {st : CollectorState}
    {d : DocumentMatch} (hinv : StoreInv sz st) (hf : FreshCandidate st d) :
    compareStore sz st d = addToStore sz st d := by
  obtain ⟨hsort, hnodup, hrest⟩ := hinv
  obtain ⟨hd, hfl⟩ := hf
  cases hl : st.lowestMatchOutsideResults with
  | none => exact compareStore_none hl
  | some low =>
    rw [hl] at hrest hfl
    obtain ⟨hlen, hlowmem, hall⟩ := hrest
    rw [compareStore_some hl]
    by_cases hcmp : 0 ≤ soCompare d low
    · rw [if_pos hcmp]
      have hstrict : ∀ x ∈ st.store, ¬ rle d x := by
        intro x hx hcon
        have h1 : soCompare d low ≤ 0 := soCompare_trans_le hcon (hall x hx)
        exact hfl (soCompare_eq_zero (le_antisymm h1 hcmp))
      have happ : st.store.orderedInsert rle d = st.store ++ [d] :=
        orderedInsert_eq_append hstrict
      have hlen2 : sz < (st.store.orderedInsert rle d).length := by
        rw [List.orderedInsert_length rle st.store d]
        omega
      unfold addToStore AddNotExceedingSize
      rw [if_pos hlen2, happ]
      rw [List.dropLast_concat, List.getLast?_concat, hl]
      simp only [updateLowest]
      rw [if_neg (by omega)]
      cases st with
      | mk s l =>
        have hl2 : l = some low := hl
        rw [hl2]
    · rw [if_neg hcmp]

theorem storeInv_addToStore_of {sz : Nat} {st : CollectorState} {d : DocumentMatch}
    (hsort : List.Sorted rle st.store) (hnodup : st.store.Nodup)
    (hd : d ∉ st.store)
    (hlowinv : ∀ low, st.lowestMatchOutsideResults = some low →
      st.store.length = sz ∧ low ∉ st.store ∧ (∀ x ∈ st.store, soCompare x low ≤ 0) ∧
      d ≠ low ∧ soCompare d low < 0)
    (hnone : st.lowestMatchOutsideResults = none → st.store.length ≤ sz) :
    StoreInv sz (addToStore sz st d) := by
  have hs2sort : List.Sorted rle (st.store.orderedInsert rle d) :=
    sorted_orderedInsert_rle d st.store hsort
  have hs2nodup : (st.store.orderedInsert rle d).Nodup := nodup_orderedInsert hd hnodup
  have hs2len : (st.store.orderedInsert rle d).length = st.store.length + 1 :=
    List.orderedInsert_length rle st.store d
  have hstlen : st.store.length ≤ sz := by
    cases hls : st.lowestMatchOutsideResults with
    | none => exact hnone hls
    | some low => exact le_of_eq (hlowinv low hls).1
  unfold addToStore AddNotExceedingSize
  by_cases hov : sz < (st.store.orderedInsert rle d).length
  · rw [if_pos hov]
    have hne2 : st.store.orderedInsert rle d ≠ [] :=
      List.ne_nil_of_length_pos (by omega)
    have hgl : (st.store.orderedInsert rle d).getLast? =
        some ((st.store.orderedInsert rle d).getLast hne2) :=
      List.getLast?_eq_getLast _ hne2
    have hrle_last : ∀ x ∈ (st.store.orderedInsert rle d).dropLast,
        rle x ((st.store.orderedInsert rle d).getLast hne2) := by
      intro x hx
      exact sorted_forall_rle_getLast hs2sort hne2 x
        ((List.dropLast_sublist _).subset hx)
    have hlast_notmem :
        (st.store.orderedInsert rle d).getLast hne2 ∉
          (st.store.orderedInsert rle d).dropLast := by
      intro hc
      have hdecomp := List.dropLast_append_getLast hne2
      have hnd := hs2nodup
      rw [← hdecomp] at hnd
      exact (List.nodup_append.mp hnd).2.2 hc (List.mem_singleton_self _)
    have hdl_sorted : List.Sorted rle (st.store.orderedInsert rle d).dropLast :=
      hs2sort.sublist (List.dropLast_sublist _)
    have hdl_nodup : (st.store.orderedInsert rle d).dropLast.Nodup :=
      hs2nodup.sublist (List.dropLast_sublist _)
    have hdl_len : (st.store.orderedInsert rle d).dropLast.length = sz := by
      rw [List.length_dropLast]
      omega
    have hdl_mem : ∀ x ∈ (st.store.orderedInsert rle d).dropLast,
        x = d ∨ x ∈ st.store := by
      intro x hx
      exact (List.mem_orderedInsert rle).mp ((List.dropLast_sublist _).subset hx)
    refine ⟨hdl_sorted, hdl_nodup, ?_⟩
    rw [hgl]
    cases hls : st.lowestMatchOutsideResults with
    | none =>
      simp only [updateLowest]
      exact ⟨hdl_len, hlast_notmem, fun x hx => hrle_last x hx⟩
    | some low =>
      obtain ⟨hlen0, hlowmem, hall, hnedl, hdlow⟩ := hlowinv low hls
      simp only [updateLowest]
      by_cases hrl : soCompare ((st.store.orderedInsert rle d).getLast hne2) low < 0
      · rw [if_pos hrl]
        exact ⟨hdl_len, hlast_notmem, fun x hx => hrle_last x hx⟩
      · rw [if_neg hrl]
        refine ⟨hdl_len, ?_, ?_⟩
        · intro hc
          rcases hdl_mem low hc with he | he
          · exact hnedl he.symm
          · exact hlowmem he
        · intro x hx
          rcases hdl_mem x hx with he | he
          · rw [he]
            exact le_of_lt hdlow
          · exact hall x he
  · rw [if_neg hov]
    refine ⟨hs2sort, hs2nodup, ?_⟩
    cases hls : st.lowestMatchOutsideResults with
    | none =>
      simp only [updateLowest]
      show (st.store.orderedInsert rle d).length ≤ sz
      omega
    | some low =>
      exfalso
      have hlen0 := (hlowinv low hls).1
      omega

theorem storeInv_compareStore {sz : Nat} {st : CollectorState} {d : DocumentMatch}
    (hinv : StoreInv sz st) (hf : FreshCandidate st d) :
    StoreInv sz (compareStore sz st d) := by
  obtain ⟨hsort, hnodup, hrest⟩ := hinv
  obtain ⟨hd, hfl⟩ := hf
  cases hl : st.lowestMatchOutsideResults with
  | none =>
    rw [hl] at hrest
    rw [compareStore_none hl]
    refine storeInv_addToStore_of hsort hnodup hd ?_ ?_
    · intro low hls
      rw [hl] at hls
      exact Option.noConfusion hls
    · intro _
      exact hrest
  | some low =>
    rw [hl] at hrest hfl
    obtain ⟨hlen, hlowmem, hall⟩ := hrest
    rw [compareStore_some hl]
    by_cases hcmp : 0 ≤ soCompare d low
    · rw [if_pos hcmp]
      refine ⟨hsort, hnodup, ?_⟩
      rw [hl]
      exact ⟨hlen, hlowmem, hall⟩
    · rw [if_neg hcmp]
      refine storeInv_addToStore_of hsort hnodup hd ?_ ?_
      · intro low2 hls
        rw [hl] at hls
        have heq : low = low2 := Option.some.inj hls
        rw [← heq]
        exact ⟨hlen, hlowmem, hall, hfl, by omega⟩
      · intro hls
        rw [hl] at hls
        exact Option.noConfusion hls


theorem foldl_compareStore_eq (sz : Nat) :
    ∀ (ds : List DocumentMatch) (st : CollectorState),
      StoreInv sz st →
      (∀ x ∈ ds, x ∉ st.store) →
      (∀ l, st.lowestMatchOutsideResults = some l → l ∉ ds) →
      ds.Nodup →
      ds.foldl (compareStore sz) st = ds.foldl (addToStore sz) st
  | [], _, _, _, _, _ => rfl
  | d :: ds, st, hinv, hfresh, hlfresh, hnodup => by
    have hf : FreshCandidate st d := by
      refine ⟨hfresh d (List.mem_cons_self d ds), ?_⟩
      cases hls : st.lowestMatchOutsideResults with
      | none => trivial
      | some low =>
        show d ≠ low
        intro hdl
        exact hlfresh low hls (by rw [← hdl]; exact List.mem_cons_self d ds)
    have hstep := compareStore_eq_addToStore hinv hf
    have hinv2 := storeInv_compareStore hinv hf
    rw [hstep] at hinv2
    simp only [List.foldl_cons]
    rw [hstep]
    refine foldl_compareStore_eq sz ds (addToStore sz st d) hinv2 ?_ ?_
      (List.Nodup.of_cons hnodup)
    · intro x hx hxmem
      rcases mem_addToStore_store hxmem with rfl | hmem
      · exact (List.nodup_cons.mp hnodup).1 hx
      · exact hfresh x (List.mem_cons_of_mem d hx) hmem
    · intro l hls hlmem
      rcases lowest_addToStore hls with rfl | hmem | hprev
      · exact (List.nodup_cons.mp hnodup).1 hlmem
      · exact hfresh l (List.mem_cons_of_mem d hlmem) hmem
      · exact hlfresh l hprev (List.mem_cons_of_mem d hlmem)

theorem foldl_compareStore_store_take (sz : Nat) (ds : List DocumentMatch)
    (hnodup : ds.Nodup) :
    (ds.foldl (compareStore sz) ⟨[], none⟩).store =
      List.take sz (List.insertionSort rle ds) := by
  rw [foldl_compareStore_eq sz ds ⟨[], none⟩
    ⟨List.sorted_nil, List.nodup_nil,
      by show ([] : List DocumentMatch).length ≤ sz; simp⟩
    (fun x _ hc => absurd hc (List.not_mem_nil x))
    (fun l hl => Option.noConfusion hl) hnodup]
  rw [foldl_addToStore_store]
  show ds.foldl (fun s d => (AddNotExceedingSize d sz s).1) [] =
    List.take sz (List.insertionSort rle ds)
  have hfold := foldl_addNotExceeding sz ds []
  rw [List.take_nil] at hfold
  rw [hfold, oiFold_eq_insertionSort]

theorem collectState_store_none (sz : Nat) (ds : List DocumentMatch)
    (hnodup : ds.Nodup) :
    (collectState none sz ds).store = List.take sz (List.insertionSort rle ds) := by
  have h0 : comparePipeline none sz = compareStore sz := rfl
  unfold collectState
  rw [h0]
  exact foldl_compareStore_store_take sz ds hnodup

theorem assignHits_hit_ge : ∀ (n : Nat) (ks : List (List Int))
    (d : DocumentMatch), d ∈ assignHits n ks → n ≤ d.hitNumber
  | _, [], _, h => absurd h (List.not_mem_nil _)
  | n, k :: ks, d, h => by
    rcases List.mem_cons.mp h with he | hm
    · rw [he]
    · exact le_trans (Nat.le_succ n) (assignHits_hit_ge (n + 1) ks d hm)

theorem assignHits_nodup : ∀ (n : Nat) (ks : List (List Int)),
    (assignHits n ks).Nodup
  | _, [] => List.nodup_nil
  | n, k :: ks => by
    refine List.nodup_cons.mpr ⟨?_, assignHits_nodup (n + 1) ks⟩
    intro hmem
    have h2 := assignHits_hit_ge (n + 1) ks ⟨k, n⟩ hmem
    have h3 : n + 1 ≤ n := h2
    omega

/-- Claim C1: for every search through Collect with parameters (size, skip,
sort) over a finite stream of matches, the results are exactly the contiguous
slice from rank skip (inclusive) to rank skip+size (exclusive) of the full
matched set ordered under the sort order with ties broken by ascending hit
number, emitted in descending order exactly when reverse is set. -/
theorem collect_topn_window (size skip : Nat) (reverse : Bool)
    (keys : List (List Int)) :
    Collect size skip reverse none keys =
      (if reverse then List.reverse else id)
        (List.take size
          (List.drop skip (List.insertionSort rle (assignHits 1 keys)))) := by
  unfold Collect
  rw [show finalizeResults skip reverse
        (collectState none (size + skip) (assignHits 1 keys)) =
      (if reverse then List.reverse else id)
        (List.drop skip
          (collectState none (size + skip) (assignHits 1 keys)).store) from by
    cases reverse <;> simp [finalizeResults, storeFinal]]
  rw [collectState_store_none (size + skip) (assignHits 1 keys)
    (assignHits_nodup 1 keys)]
  rw [List.drop_take]
  have harith : size + skip - skip = size := by omega
  rw [harith]


theorem comparePipeline_some (sa : DocumentMatch) (sz : Nat)
    (st : CollectorState) (d : DocumentMatch) :
    comparePipeline (some sa) sz st d =
      if soCompare d ⟨sa.sortValue, d.hitNumber⟩ ≤ 0 then st
      else compareStore sz st d := rfl

theorem comparePipeline_none (sz : Nat) (st : CollectorState) (d : DocumentMatch) :
    comparePipeline none sz st d = compareStore sz st d := rfl

theorem mem_comparePipeline_store {sa : Option DocumentMatch} {sz : Nat}
    {st : CollectorState} {d x : DocumentMatch}
    (h : x ∈ (comparePipeline sa sz st d).store) : x = d ∨ x ∈ st.store := by
  cases sa with
  | none =>
    rw [comparePipeline_none] at h
    exact mem_compareStore_store h
  | some s =>
    rw [comparePipeline_some] at h
    by_cases hc : soCompare d ⟨s.sortValue, d.hitNumber⟩ ≤ 0
    · rw [if_pos hc] at h
      exact Or.inr h
    · rw [if_neg hc] at h
      exact mem_compareStore_store h

theorem mem_collect_fold_store (sa : Option DocumentMatch) (sz : Nat) :
    ∀ (ds : List DocumentMatch) (st : CollectorState) (x : DocumentMatch),
      x ∈ (ds.foldl (comparePipeline sa sz) st).store → x ∈ ds ∨ x ∈ st.store
  | [], _, _, h => Or.inr h
  | d :: ds, st, x, h => by
    simp only [List.foldl_cons] at h
    rcases mem_collect_fold_store sa sz ds (comparePipeline sa sz st d) x h with hm | hm
    · exact Or.inl (List.mem_cons_of_mem d hm)
    · rcases mem_comparePipeline_store hm with he | he
      · refine Or.inl ?_
        rw [he]
        exact List.mem_cons_self d ds
      · exact Or.inr he

theorem mem_finalizeResults {skip : Nat} {reverse : Bool} {st : CollectorState}
    {x : DocumentMatch} (h : x ∈ finalizeResults skip reverse st) :
    x ∈ st.store := by
  cases reverse with
  | false =>
    simp only [finalizeResults, storeFinal, Bool.false_eq_true, if_false] at h
    exact (List.drop_sublist skip st.store).subset h
  | true =>
    simp only [finalizeResults, storeFinal, if_true, List.mem_reverse] at h
    exact (List.drop_sublist skip st.store).subset h

theorem runPipelines_bucket (sa : Option DocumentMatch) (sz : Nat) :
    ∀ (ds : List DocumentMatch) (p : PipelineState),
      (ds.foldl (collectSingle sa sz) p).bucket = p.bucket ++ ds
  | [], p => by simp
  | d :: ds, p => by
    simp only [List.foldl_cons]
    rw [runPipelines_bucket sa sz ds (collectSingle sa sz p d)]
    show (p.bucket ++ [d]) ++ ds = p.bucket ++ d :: ds
    rw [List.append_assoc]
    rfl

theorem runPipelines_cstate (sa : Option DocumentMatch) (sz : Nat) :
    ∀ (ds : List DocumentMatch) (p : PipelineState),
      (ds.foldl (collectSingle sa sz) p).cstate =
        ds.foldl (comparePipeline sa sz) p.cstate
  | [], _ => rfl
  | d :: ds, p => by
    simp only [List.foldl_cons]
    exact runPipelines_cstate sa sz ds (collectSingle sa sz p d)

/-- Claim C6: the aggregation bucket consumes every match the searcher
produces, in stream order — including matches the search-after filter skips,
the lowest-outside-results short-circuit drops, or the bounded store evicts —
not only the matches retained in the final results; those final results are in
particular always among the consumed matches. -/
theorem bucket_consumes_every_match (size skip : Nat) (reverse : Bool)
    (sa : Option DocumentMatch) (keys : List (List Int)) :
    (runPipelines sa (size + skip) (assignHits 1 keys)).bucket =
      assignHits 1 keys ∧
    (runPipelines sa (size + skip) (assignHits 1 keys)).cstate =
      collectState sa (size + skip) (assignHits 1 keys) ∧
    ∀ x ∈ Collect size skip reverse sa keys,
      x ∈ (runPipelines sa (size + skip) (assignHits 1 keys)).bucket := by
  have hb : (runPipelines sa (size + skip) (assignHits 1 keys)).bucket =
      assignHits 1 keys := by
    unfold runPipelines
    rw [runPipelines_bucket]
    rfl
  refine ⟨hb, ?_, ?_⟩
  · unfold runPipelines
    rw [runPipelines_cstate]
    rfl
  · intro x hx
    rw [hb]
    have hx2 : x ∈ (collectState sa (size + skip) (assignHits 1 keys)).store :=
      mem_finalizeResults hx
    rcases mem_collect_fold_store sa (size + skip) (assignHits 1 keys)
        ⟨[], none⟩ x hx2 with hm | hm
    · exact hm
    · exact absurd hm (List.not_mem_nil x)

/-- Claim C5 (amended): after the searcher drains, finalisation drains the
store in rank order and discards the first skip entries, which are the skip
best-ranked ones — every discarded entry ranks at or before every kept one —
then reverses the remaining entries exactly when reverse is set. -/
theorem finalize_discards_top_ranks (skip : Nat) (reverse : Bool)
    (st : CollectorState) (hs : List.Sorted rle st.store) :
    finalizeResults skip reverse st =
      (if reverse then List.reverse else id) (List.drop skip st.store) ∧
    ∀ x ∈ List.take skip st.store, ∀ y ∈ List.drop skip st.store, rle x y := by
  constructor
  · cases reverse <;> simp [finalizeResults, storeFinal]
  · intro x hx y hy
    have hs2 := hs
    rw [← List.take_append_drop skip st.store] at hs2
    exact (List.pairwise_append.mp hs2).2.2 x hx y hy

/-- Witness for the amended claim C5 at a concrete sorted store. -/
theorem finalize_discards_top_ranks_witness :
    List.Sorted rle [(⟨[0], 1⟩ : DocumentMatch), ⟨[1], 2⟩] ∧
    (finalizeResults 1 false ⟨[⟨[0], 1⟩, ⟨[1], 2⟩], none⟩ =
      (if false then List.reverse else id)
        (List.drop 1 [(⟨[0], 1⟩ : DocumentMatch), ⟨[1], 2⟩]) ∧
     ∀ x ∈ List.take 1 [(⟨[0], 1⟩ : DocumentMatch), ⟨[1], 2⟩],
       ∀ y ∈ List.drop 1 [(⟨[0], 1⟩ : DocumentMatch), ⟨[1], 2⟩], rle x y) :=
  ⟨by decide,
   finalize_discards_top_ranks 1 false ⟨[⟨[0], 1⟩, ⟨[1], 2⟩], none⟩ (by decide)⟩

/-- Claim C5 as stated is refuted at size 1, skip 1 on a two match stream: the
code discards the skip best-ranked store entries and keeps the worst one,
while discarding the skip worst-ranked entries would keep the best one. -/
theorem finalize_worst_discard_cex :
    Collect 1 1 false none [[0], [1]] = [⟨[1], 2⟩] ∧
    finalizeDiscardWorst 1 false (collectState none 2 (assignHits 1 [[0], [1]])) =
      [⟨[0], 1⟩] ∧
    Collect 1 1 false none [[0], [1]] ≠
      finalizeDiscardWorst 1 false (collectState none 2 (assignHits 1 [[0], [1]])) := by
  decide

/-- Claim C3: on reachable compare-stage states with a fresh candidate — the
situation in every real run, hit numbers being unique — when a lowest match
outside results is recorded and the candidate sorts strictly worse, the
candidate is dropped with no operation on the bounded store, and the code
condition (compare greater-or-equal) coincides with strictly worse; otherwise
the candidate is inserted into the store bounded by size+skip; an element
evicted on overflow becomes, or updates, the recorded lowest match outside
results, which is always the better ranked of the evicted element and the
previous value. -/
theorem lowest_outside_short_circuit (sz : Nat) (st : CollectorState)
    (d : DocumentMatch) (hinv : StoreInv sz st) (hf : FreshCandidate st d) :
    (∀ low, st.lowestMatchOutsideResults = some low →
      ((0 ≤ soCompare d low ↔ 0 < soCompare d low) ∧
       (0 < soCompare d low → compareStore sz st d = st))) ∧
    ((∀ low, st.lowestMatchOutsideResults = some low → soCompare d low < 0) →
      (compareStore sz st d).store =
        List.take sz (st.store.orderedInsert rle d) ∧
      (compareStore sz st d).lowestMatchOutsideResults =
        updateLowest (AddNotExceedingSize d sz st.store).2
          st.lowestMatchOutsideResults) ∧
    (∀ r low l2, updateLowest (some r) (some low) = some l2 →
      rle l2 r ∧ rle l2 low ∧ (l2 = r ∨ l2 = low)) ∧
    (∀ r, updateLowest (some r) none = some r) := by
  have hlen_le : st.store.length ≤ sz := by
    cases hls : st.lowestMatchOutsideResults with
    | none =>
      have h2 := hinv.2.2
      rw [hls] at h2
      exact h2
    | some low =>
      have h2 := hinv.2.2
      rw [hls] at h2
      exact le_of_eq h2.1
  refine ⟨?_, ?_, ?_, fun r => rfl⟩
  · intro low hl
    have hfl2 := hf.2
    rw [hl] at hfl2
    constructor
    · constructor
      · intro hge
        have hne0 : soCompare d low ≠ 0 := fun h0 => hfl2 (soCompare_eq_zero h0)
        omega
      · intro hgt
        exact le_of_lt hgt
    · intro hgt
      rw [compareStore_some hl, if_pos (le_of_lt hgt)]
  · intro _
    have heq := compareStore_eq_addToStore hinv hf
    rw [heq]
    constructor
    · exact AddNotExceedingSize_fst d sz st.store hlen_le
    · rfl
  · intro r low l2 h
    simp only [updateLowest] at h
    by_cases hc : soCompare r low < 0
    · rw [if_pos hc] at h
      have he : r = l2 := Option.some.inj h
      rw [← he]
      exact ⟨rle_refl r, le_of_lt hc, Or.inl rfl⟩
    · rw [if_neg hc] at h
      have he : low = l2 := Option.some.inj h
      rw [← he]
      refine ⟨?_, rle_refl low, Or.inr rfl⟩
      show soCompare low r ≤ 0
      rw [soCompare_neg r low]
      omega

/-- Witness for claim C3 at a concrete state and candidate. -/
theorem lowest_outside_short_circuit_witness :
    StoreInv 1 ⟨[⟨[0], 1⟩], some ⟨[5], 2⟩⟩ ∧
    FreshCandidate ⟨[⟨[0], 1⟩], some ⟨[5], 2⟩⟩ ⟨[3], 3⟩ ∧
    ((∀ low, (⟨[⟨[0], 1⟩], some ⟨[5], 2⟩⟩ : CollectorState).lowestMatchOutsideResults =
        some low →
      ((0 ≤ soCompare ⟨[3], 3⟩ low ↔ 0 < soCompare ⟨[3], 3⟩ low) ∧
       (0 < soCompare ⟨[3], 3⟩ low →
        compareStore 1 ⟨[⟨[0], 1⟩], some ⟨[5], 2⟩⟩ ⟨[3], 3⟩ =
          ⟨[⟨[0], 1⟩], some ⟨[5], 2⟩⟩))) ∧
    ((∀ low, (⟨[⟨[0], 1⟩], some ⟨[5], 2⟩⟩ : CollectorState).lowestMatchOutsideResults =
        some low → soCompare ⟨[3], 3⟩ low < 0) →
      (compareStore 1 ⟨[⟨[0], 1⟩], some ⟨[5], 2⟩⟩ ⟨[3], 3⟩).store =
        List.take 1 ([(⟨[0], 1⟩ : DocumentMatch)].orderedInsert rle ⟨[3], 3⟩) ∧
      (compareStore 1 ⟨[⟨[0], 1⟩], some ⟨[5], 2⟩⟩ ⟨[3], 3⟩).lowestMatchOutsideResults =
        updateLowest (AddNotExceedingSize ⟨[3], 3⟩ 1 [⟨[0], 1⟩]).2
          (some ⟨[5], 2⟩)) ∧
    (∀ r low l2, updateLowest (some r) (some low) = some l2 →
      rle l2 r ∧ rle l2 low ∧ (l2 = r ∨ l2 = low)) ∧
    (∀ r, updateLowest (some r) none = some r)) :=
  ⟨by decide, by decide,
   lowest_outside_short_circuit 1 ⟨[⟨[0], 1⟩], some ⟨[5], 2⟩⟩ ⟨[3], 3⟩
     (by decide) (by decide)⟩


theorem soCompare_cursor (d : DocumentMatch) (aft : List Int) :
    soCompare d ⟨aft, d.hitNumber⟩ = listCompare d.sortValue aft := by
  show (if listCompare d.sortValue aft = 0
      then natCompareInt d.hitNumber d.hitNumber
      else listCompare d.sortValue aft) = listCompare d.sortValue aft
  by_cases h : listCompare d.sortValue aft = 0
  · rw [if_pos h, h]
    simp [natCompareInt]
  · rw [if_neg h]

theorem listCompare_le_of_soCompare_le {x y : DocumentMatch}
    (h : soCompare x y ≤ 0) : listCompare x.sortValue y.sortValue ≤ 0 := by
  simp only [soCompare] at h
  by_cases hc : listCompare x.sortValue y.sortValue = 0
  · omega
  · rw [if_neg hc] at h
    exact h

theorem foldl_searchAfter_filter (sa : DocumentMatch) (sz : Nat) :
    ∀ (ds : List DocumentMatch) (st : CollectorState),
      ds.foldl (comparePipeline (some sa) sz) st =
        (ds.filter fun dd =>
          decide (0 < soCompare dd ⟨sa.sortValue, dd.hitNumber⟩)).foldl
          (compareStore sz) st
  | [], _ => rfl
  | d :: ds, st => by
    simp only [List.foldl_cons]
    rw [comparePipeline_some, List.filter_cons]
    by_cases h : soCompare d ⟨sa.sortValue, d.hitNumber⟩ ≤ 0
    · rw [if_pos h, if_neg (by simp only [decide_eq_true_eq]; omega)]
      exact foldl_searchAfter_filter sa sz ds st
    · rw [if_neg h, if_pos (by simp only [decide_eq_true_eq]; omega)]
      simp only [List.foldl_cons]
      exact foldl_searchAfter_filter sa sz ds (compareStore sz st d)

theorem collectAfter_eq_filter (size : Nat) (aft : List Int)
    (keys : List (List Int)) :
    CollectAfter size aft false keys =
      List.take size (List.insertionSort rle
        ((assignHits 1 keys).filter fun dd =>
          decide (0 < listCompare dd.sortValue aft))) := by
  unfold CollectAfter Collect
  rw [show finalizeResults 0 false
        (collectState (some ⟨aft, 0⟩) (size + 0) (assignHits 1 keys)) =
      (collectState (some ⟨aft, 0⟩) (size + 0) (assignHits 1 keys)).store from by
    simp [finalizeResults, storeFinal]]
  unfold collectState
  rw [foldl_searchAfter_filter ⟨aft, 0⟩ (size + 0) (assignHits 1 keys) ⟨[], none⟩]
  rw [List.filter_congr fun dd _ => by
    show decide (0 < soCompare dd ⟨aft, dd.hitNumber⟩) =
      decide (0 < listCompare dd.sortValue aft)
    rw [soCompare_cursor]]
  rw [Nat.add_zero]
  exact foldl_compareStore_store_take size _
    ((assignHits_nodup 1 keys).filter _)

theorem insertionSort_filter_comm (p : DocumentMatch → Bool)
    (ds : List DocumentMatch) :
    List.insertionSort rle (ds.filter p) =
      (List.insertionSort rle ds).filter p := by
  refine eq_of_perm_sorted_rle ?_ (sorted_insertionSort_rle _) ?_
  · exact (List.perm_insertionSort rle (ds.filter p)).trans
      ((List.perm_insertionSort rle ds).symm.filter p)
  · exact List.Pairwise.filter p (sorted_insertionSort_rle ds)

theorem filter_eq_drop_of_boundary {S : List DocumentMatch} {n : Nat}
    {aft : List Int}
    (hle : ∀ x ∈ List.take n S, listCompare x.sortValue aft ≤ 0)
    (hgt : ∀ y ∈ List.drop n S, 0 < listCompare y.sortValue aft) :
    S.filter (fun dd => decide (0 < listCompare dd.sortValue aft)) =
      List.drop n S := by
  have h1 : (List.take n S).filter
      (fun dd => decide (0 < listCompare dd.sortValue aft)) = [] :=
    List.filter_eq_nil_iff.mpr (fun a ha => by
      simp only [decide_eq_true_eq]
      have := hle a ha
      omega)
  have h2 : (List.drop n S).filter
      (fun dd => decide (0 < listCompare dd.sortValue aft)) = List.drop n S :=
    List.filter_eq_self.mpr (fun a ha => by
      simp only [decide_eq_true_eq]
      exact hgt a ha)
  conv_lhs => rw [← List.take_append_drop n S]
  rw [List.filter_append, h1, h2, List.nil_append]

/-- Claim C2 (amended): the compare stage skips a match exactly when it
compares less-or-equal to the search-after cursor whose hit number was first
set to the candidate hit number, so the stream reaching the store is exactly
the matches whose sort key is strictly greater than the cursor key;
consequently, feeding the sort key of the last result of a page as the cursor
yields exactly the immediate next page — with no gaps or overlaps — provided
no match ranked after that page ties the cursor key (matches tying the cursor
key are skipped too, which is the gap the counterexample exhibits). -/
theorem searchAfter_next_page (size : Nat) (keys : List (List Int))
    (lastd : DocumentMatch)
    (hlast : (Collect size 0 false none keys).getLast? = some lastd)
    (huniq : ∀ dd ∈ (List.insertionSort rle (assignHits 1 keys)).drop size,
      listCompare dd.sortValue lastd.sortValue ≠ 0) :
    (∀ (ds : List DocumentMatch) (st : CollectorState) (sa : DocumentMatch)
        (sz : Nat),
      ds.foldl (comparePipeline (some sa) sz) st =
        (ds.filter fun dd =>
          decide (0 < soCompare dd ⟨sa.sortValue, dd.hitNumber⟩)).foldl
          (compareStore sz) st) ∧
    CollectAfter size lastd.sortValue false keys =
      List.take size
        ((List.insertionSort rle (assignHits 1 keys)).drop size) := by
  refine ⟨fun ds st sa sz => foldl_searchAfter_filter sa sz ds st, ?_⟩
  have hpage1 : Collect size 0 false none keys =
      List.take size (List.insertionSort rle (assignHits 1 keys)) := by
    unfold Collect
    rw [show finalizeResults 0 false
          (collectState none (size + 0) (assignHits 1 keys)) =
        (collectState none (size + 0) (assignHits 1 keys)).store from by
      simp [finalizeResults, storeFinal]]
    rw [collectState_store_none (size + 0) _ (assignHits_nodup 1 keys)]
    rw [Nat.add_zero]
  rw [hpage1] at hlast
  have hSsorted : List.Sorted rle (List.insertionSort rle (assignHits 1 keys)) :=
    sorted_insertionSort_rle _
  have htake_sorted :
      List.Sorted rle (List.take size (List.insertionSort rle (assignHits 1 keys))) :=
    hSsorted.sublist (List.take_sublist size _)
  have htake_ne : List.take size (List.insertionSort rle (assignHits 1 keys)) ≠ [] := by
    intro hc
    rw [hc] at hlast
    simp at hlast
  have hlast_eq :
      (List.take size (List.insertionSort rle (assignHits 1 keys))).getLast htake_ne =
        lastd := by
    have hq := List.getLast?_eq_getLast
      (List.take size (List.insertionSort rle (assignHits 1 keys))) htake_ne
    rw [hq] at hlast
    exact Option.some.inj hlast
  have hlast_mem : lastd ∈ List.take size (List.insertionSort rle (assignHits 1 keys)) := by
    rw [← hlast_eq]
    exact List.getLast_mem htake_ne
  have hle : ∀ x ∈ List.take size (List.insertionSort rle (assignHits 1 keys)),
      listCompare x.sortValue lastd.sortValue ≤ 0 := by
    intro x hx
    have hr : rle x lastd := by
      rw [← hlast_eq]
      exact sorted_forall_rle_getLast htake_sorted htake_ne x hx
    exact listCompare_le_of_soCompare_le hr
  have hgt : ∀ y ∈ (List.insertionSort rle (assignHits 1 keys)).drop size,
      0 < listCompare y.sortValue lastd.sortValue := by
    intro y hy
    have hr : rle lastd y := by
      have hs2 := hSsorted
      rw [← List.take_append_drop size
        (List.insertionSort rle (assignHits 1 keys))] at hs2
      exact (List.pairwise_append.mp hs2).2.2 lastd hlast_mem y hy
    have h1 : listCompare lastd.sortValue y.sortValue ≤ 0 :=
      listCompare_le_of_soCompare_le hr
    have h2 := huniq y hy
    have h3 : listCompare y.sortValue lastd.sortValue =
        -listCompare lastd.sortValue y.sortValue :=
      listCompare_neg lastd.sortValue y.sortValue
    omega
  rw [collectAfter_eq_filter size lastd.sortValue keys]
  rw [insertionSort_filter_comm]
  rw [filter_eq_drop_of_boundary hle hgt]

/-- Witness for the amended claim C2 on three matches with distinct keys. -/
theorem searchAfter_next_page_witness :
    ((Collect 1 0 false none [[0], [1], [2]]).getLast? = some ⟨[0], 1⟩ ∧
     (∀ dd ∈ (List.insertionSort rle (assignHits 1 [[0], [1], [2]])).drop 1,
       listCompare dd.sortValue (⟨[0], 1⟩ : DocumentMatch).sortValue ≠ 0)) ∧
    ((∀ (ds : List DocumentMatch) (st : CollectorState) (sa : DocumentMatch)
        (sz : Nat),
      ds.foldl (comparePipeline (some sa) sz) st =
        (ds.filter fun dd =>
          decide (0 < soCompare dd ⟨sa.sortValue, dd.hitNumber⟩)).foldl
          (compareStore sz) st) ∧
    CollectAfter 1 (⟨[0], 1⟩ : DocumentMatch).sortValue false [[0], [1], [2]] =
      List.take 1
        ((List.insertionSort rle (assignHits 1 [[0], [1], [2]])).drop 1)) :=
  ⟨⟨by decide, by decide⟩,
   searchAfter_next_page 1 [[0], [1], [2]] ⟨[0], 1⟩ (by decide) (by decide)⟩

/-- Claim C2 as stated is refuted on pagination with tied sort keys: with keys
0, 0, 1 and page size one, page one holds the first key-0 match and the
immediate next page is the second key-0 match, but search-after with the sort
key of the last result skips every match tying that key and returns the key-1
match instead, leaving a gap. -/
theorem searchAfter_page_gap_cex :
    Collect 1 0 false none [[0], [0], [1]] = [⟨[0], 1⟩] ∧
    List.take 1 ((List.insertionSort rle (assignHits 1 [[0], [0], [1]])).drop 1) =
      [⟨[0], 2⟩] ∧
    CollectAfter 1 [0] false [[0], [0], [1]] = [⟨[1], 3⟩] ∧
    CollectAfter 1 [0] false [[0], [0], [1]] ≠
      List.take 1 ((List.insertionSort rle (assignHits 1 [[0], [0], [1]])).drop 1) := by
  decide





end Bluge
